import Mathlib

/-!
Verification of the rls-vfs file-buffer store (src/lib.rs) against its
specification.  The Rust code is shallowly embedded: text buffers are lists
of characters, byte offsets are computed from UTF-8 character sizes, the
`HashMap` of files is an association list, and Rust panics (from `unwrap`
and out-of-bounds slicing/indexing) are an explicit outcome constructor.
Byte offsets are modelled as `Nat`; the `u32` casts in the source assume
texts smaller than 4 GiB, except the caller-supplied `len : u64` field of a
replace-text change, whose `as u32` truncation is kept explicitly.
-/

namespace RlsVfs

/-- Number of bytes of the UTF-8 encoding of a character (as in Rust,
where `char_indices` advances byte offsets by this amount). -/
def utf8Size (c : Char) : Nat :=
  if c.toNat ≤ 0x7F then 1
  else if c.toNat ≤ 0x7FF then 2
  else if c.toNat ≤ 0xFFFF then 3
  else 4

/-- Byte length of a text, `str::len` in the source. -/
def byteLen (s : List Char) : Nat := (s.map utf8Size).sum

/-- `str::char_indices` starting from byte offset `off`: each character
paired with the byte offset at which it starts. -/
def charIndicesFrom (off : Nat) : List Char → List (Nat × Char)
  | [] => []
  | c :: rest => (off, c) :: charIndicesFrom (off + utf8Size c) rest

/-- `str::char_indices` of the source. -/
def char_indices (s : List Char) : List (Nat × Char) := charIndicesFrom 0 s

/-- The enumerated search loop of `byte_in_str` (src/lib.rs:481-485): walk
the chained list, returning the byte offset stored at enumeration index
`c`. -/
def byteInStrLoop : List (Nat × Char) → Nat → Option Nat
  | [], _ => none
  | (b, _) :: _, 0 => some b
  | _ :: rest, n + 1 => byteInStrLoop rest n

/-- `byte_in_str` (src/lib.rs:478-488): converts the character offset `c`
into a byte offset within `s`, simulating a null terminator one past the
last character. -/
def byte_in_str (s : List Char) (c : Nat) : Option Nat :=
  byteInStrLoop (char_indices s ++ [(byteLen s, Char.ofNat 0)]) c

/-- The byte-offset accumulation loop of `make_line_indices`
(src/lib.rs:403-407).  The source scans bytes and pushes `i + 1` for every
`0x0A` byte at byte index `i`; in valid UTF-8 a `0x0A` byte occurs exactly
as the one-byte encoding of the newline character (continuation and lead
bytes of multi-byte characters are all at least `0x80`), so scanning
characters while accumulating their byte sizes visits the same offsets. -/
def lineIndicesFrom (off : Nat) : List Char → List Nat
  | [] => []
  | c :: rest =>
    if c = '\n' then (off + 1) :: lineIndicesFrom (off + 1) rest
    else lineIndicesFrom (off + utf8Size c) rest

/-- `make_line_indices` (src/lib.rs:401-410): offset `0`, the offset just
past every newline byte, and the byte length of the text as a final
sentinel. -/
def make_line_indices (s : List Char) : List Nat :=
  0 :: (lineIndicesFrom 0 s ++ [byteLen s])

/-- Rust byte slicing `s[..n]` restricted to its defined cases: `some`
exactly when `n` lies on a character boundary and within the text,
otherwise `none` (the Rust slice panics there). -/
def takeBytes : List Char → Nat → Option (List Char)
  | _, 0 => some []
  | [], _ + 1 => none
  | c :: rest, n + 1 =>
    if utf8Size c ≤ n + 1 then (takeBytes rest (n + 1 - utf8Size c)).map (fun t => c :: t)
    else none

/-- Rust byte slicing `s[n..]`: `some` exactly when `n` lies on a character
boundary and within the text. -/
def dropBytes : List Char → Nat → Option (List Char)
  | s, 0 => some s
  | [], _ + 1 => none
  | c :: rest, n + 1 =>
    if utf8Size c ≤ n + 1 then dropBytes rest (n + 1 - utf8Size c)
    else none

/-- Rust byte slicing `s[a..b]`: requires `a ≤ b` and both ends on
character boundaries within the text. -/
def sliceBytes (s : List Char) (a b : Nat) : Option (List Char) :=
  if a ≤ b then
    match dropBytes s a with
    | none => none
    | some t => takeBytes t (b - a)
  else none

/-- The error enumeration of src/lib.rs:63-78. -/
inductive Error where
  | OutOfSync (path : String)
  | Io (path : Option String) (msg : Option String)
  | UncommittedChanges (path : String)
  | BadLocation
  | FileNotCached
  | NoUserDataForFile
deriving DecidableEq

/-- A change request (src/lib.rs:33-52).  A `ReplaceText` span carries the
file, zero-indexed start and end row/column, the optional character length
(Rust `u64`) overriding the end position, and the replacement text. -/
inductive Change where
  | AddFile (file : String) (text : List Char)
  | ReplaceText (file : String) (rowStart colStart rowEnd colEnd : Nat)
      (len : Option Nat) (text : List Char)
deriving DecidableEq

/-- `Change::file` (src/lib.rs:55-60). -/
def Change.file : Change → String
  | .AddFile f _ => f
  | .ReplaceText f _ _ _ _ _ _ => f

/-- Result of a file-level operation: a value, a returned `Err`, or a Rust
panic (from `unwrap` or an out-of-bounds / non-boundary slice). -/
inductive Outcome (α : Type) where
  | ok (a : α)
  | err (e : Error)
  | panic
deriving DecidableEq

/-- Result of a store-level operation.  A returned `Err` leaves the store
observable in the state reached so far, which `err` therefore carries; a
panic poisons the store mutex, so `panic` carries no state. -/
inductive VfsOut (σ : Type) where
  | ok (s : σ)
  | err (e : Error) (s : σ)
  | panic
deriving DecidableEq

/-- A file buffer (src/lib.rs:412-418). -/
structure File (U : Type) where
  text : List Char
  line_indices : List Nat
  changed : Bool
  user_data : Option U
deriving DecidableEq

/-- `File::load_line` (src/lib.rs:465-474). -/
def File.load_line {U : Type} (f : File U) (line : Nat) : Outcome (List Char) :=
  match f.line_indices[line]? with
  | none => .err .BadLocation
  | some start =>
    match f.line_indices[line + 1]? with
    | none => .err .BadLocation
    | some stop =>
      if stop ≤ byteLen f.text ∧ start ≤ stop then
        match sliceBytes f.text start stop with
        | some s => .ok s
        | none => .panic
      else .err .BadLocation

/-- One iteration of the loop body of `File::make_change`
(src/lib.rs:423-458): computes the new text for one change and updates
`text` and `line_indices`.  Every `unwrap` of the source maps to `panic`,
as does direct indexing of `line_indices` out of bounds and byte slicing
off a character boundary. -/
def File.applyChange {U : Type} (f : File U) (c : Change) : Outcome (File U) :=
  match c with
  | .AddFile _ text =>
    .ok { f with text := text, line_indices := make_line_indices text }
  | .ReplaceText _ rowStart colStart rowEnd colEnd len text =>
    match f.load_line rowStart with
    | .err _ => .panic
    | .panic => .panic
    | .ok firstLine =>
      match f.line_indices[rowStart]? with
      | none => .panic
      | some lineOff =>
        match byte_in_str firstLine colStart with
        | none => .panic
        | some colOff =>
          let byteStart := lineOff + colOff
          let byteEndRes : Outcome Nat :=
            match len with
            | some l =>
              match dropBytes f.text byteStart with
              | none => .panic
              | some suffix =>
                match byte_in_str suffix (l % 4294967296) with
                | none => .panic
                | some w => .ok (byteStart + w)
            | none =>
              match f.load_line rowEnd with
              | .err _ => .panic
              | .panic => .panic
              | .ok lastLine =>
                match f.line_indices[rowEnd]? with
                | none => .panic
                | some lineOffE =>
                  match byte_in_str lastLine colEnd with
                  | none => .panic
                  | some colOffE => .ok (lineOffE + colOffE)
          match byteEndRes with
          | .err e => .err e
          | .panic => .panic
          | .ok byteEnd =>
            match takeBytes f.text byteStart, dropBytes f.text byteEnd with
            | some pre, some post =>
              let newText := pre ++ text ++ post
              .ok { f with text := newText, line_indices := make_line_indices newText }
            | _, _ => .panic

/-- `File::make_change` (src/lib.rs:422-463): applies the changes in order
against the evolving buffer, then sets `changed := true` and clears
`user_data`. -/
def File.make_change {U : Type} (f : File U) (cs : List Change) : Outcome (File U) :=
  match cs with
  | [] => .ok { f with changed := true, user_data := none }
  | c :: rest =>
    match f.applyChange c with
    | .ok f' => f'.make_change rest
    | .err e => .err e
    | .panic => .panic

/-- The file constructed by the file loader and by the tests from a text
(`RealFileLoader::read`, src/lib.rs:508-513): freshly loaded files are not
dirty and carry no user data. -/
def File.from_text {U : Type} (text : List Char) : File U :=
  { text := text, line_indices := make_line_indices text,
    changed := false, user_data := none }

/-- The `FileLoader::read` boundary built from a disk content function
(`RealFileLoader::read`, src/lib.rs:498-514, with the byte-reading and
UTF-8 validation abstracted into `disk`). -/
def readerToFile (U : Type) (disk : String → Except Error (List Char))
    (path : String) : Except Error (File U) :=
  match disk path with
  | .error e => .error e
  | .ok text => .ok (File.from_text text)

/-- `HashMap::get` on the path-to-buffer map, as an association list. -/
def lookupA {U : Type} (path : String) : List (String × File U) → Option (File U)
  | [] => none
  | (p, f) :: rest => if p = path then some f else lookupA path rest

/-- `HashMap::insert`: replace the entry of the key if present, otherwise
add one. -/
def insertA {U : Type} (path : String) (f : File U) :
    List (String × File U) → List (String × File U)
  | [] => [(path, f)]
  | (p, g) :: rest =>
    if p = path then (p, f) :: rest else (p, g) :: insertA path f rest

/-- `entry(..).or_insert(vec![]).push(c)` of `coalesce_changes`: append the
change to the key's list, creating the entry at the end if absent.  The
iteration order of the Rust `HashMap` is unspecified; the model fixes
first-seen key order, which no proved statement depends on. -/
def pushChange (p : String) (c : Change) :
    List (String × List Change) → List (String × List Change)
  | [] => [(p, [c])]
  | (q, cs) :: rest =>
    if q = p then (q, cs ++ [c]) :: rest else (q, cs) :: pushChange p c rest

/-- `coalesce_changes` (src/lib.rs:392-399): group the batch by file,
preserving the order of each file's changes. -/
def coalesce_changes (changes : List Change) : List (String × List Change) :=
  changes.foldl (fun acc c => pushChange c.file c acc) []

/-- The per-file loop of `VfsInternal::on_changes` (src/lib.rs:241-266):
for each path, edit the cached buffer, or read the file through the loader
(before looking at the changes, even when the first change is `AddFile`),
edit it and insert it.  A loader error is returned with the store as
mutated so far; the failing path's buffer is not inserted. -/
def onChangesGo {U : Type} (reader : String → Except Error (File U)) :
    List (String × File U) → List (String × List Change) →
    VfsOut (List (String × File U))
  | files, [] => .ok files
  | files, (path, cs) :: rest =>
    match lookupA path files with
    | some file =>
      match file.make_change cs with
      | .ok f' => onChangesGo reader (insertA path f' files) rest
      | .err e => .err e files
      | .panic => .panic
    | none =>
      match reader path with
      | .error e => .err e files
      | .ok file =>
        match file.make_change cs with
        | .ok f' => onChangesGo reader (insertA path f' files) rest
        | .err e => .err e files
        | .panic => .panic

/-- `VfsInternal::on_changes` (src/lib.rs:241-266). -/
def onChanges {U : Type} (reader : String → Except Error (File U))
    (files : List (String × File U)) (changes : List Change) :
    VfsOut (List (String × File U)) :=
  onChangesGo reader files (coalesce_changes changes)

/-- `VfsInternal::set_file` (src/lib.rs:268-278): overwrite the buffer with
the given text, dirty and with no user data. -/
def setFile {U : Type} (files : List (String × File U)) (path : String)
    (text : List Char) : List (String × File U) :=
  insertA path
    { text := text, line_indices := make_line_indices text,
      changed := true, user_data := none } files

/-- `VfsInternal::file_saved` (src/lib.rs:219-225): clear the dirty flag if
the path is cached, otherwise do nothing; always `Ok`. -/
def fileSaved {U : Type} (files : List (String × File U)) (path : String) :
    List (String × File U) :=
  match lookupA path files with
  | some f => insertA path { f with changed := false } files
  | none => files

/-- `VfsInternal::write_file` (src/lib.rs:318-329): write the buffer's text
through the loader boundary, then clear the dirty flag. -/
def writeFile {U : Type} (writer : String → List Char → Except Error Unit)
    (files : List (String × File U)) (path : String) :
    VfsOut (List (String × File U)) :=
  match lookupA path files with
  | none => .err .FileNotCached files
  | some f =>
    match writer path f.text with
    | .error e => .err e files
    | .ok _ => .ok (insertA path { f with changed := false } files)

/-- `VfsInternal::with_user_data` (src/lib.rs:344-363).  The closure
receives either the text together with the current user data, or the error
explaining its absence; its second component models the final value of the
`&mut U` borrow, meaningful only when user data was passed in.  A
`NoUserDataForFile` result erases the slot. -/
def withUserData {U ρ : Type} (files : List (String × File U)) (path : String)
    (f : Except Error (List Char × U) → Except Error ρ × Option U) :
    Except Error ρ × List (String × File U) :=
  match lookupA path files with
  | none => ((f (.error .FileNotCached)).1, files)
  | some file =>
    let inp : Except Error (List Char × U) :=
      match file.user_data with
      | some u => .ok (file.text, u)
      | none => .error .NoUserDataForFile
    let res := f inp
    let file1 : File U :=
      match file.user_data, res.2 with
      | some _, some u2 => { file with user_data := some u2 }
      | _, _ => file
    let file2 : File U :=
      match res.1 with
      | .error .NoUserDataForFile => { file1 with user_data := none }
      | _ => file1
    (res.1, insertA path file2 files)

/-! ### Byte-length arithmetic -/

theorem utf8Size_pos (c : Char) : 0 < utf8Size c := by
  unfold utf8Size
  repeat' split
  all_goals norm_num

@[simp] theorem byteLen_nil : byteLen [] = 0 := rfl

@[simp] theorem byteLen_cons (c : Char) (s : List Char) :
    byteLen (c :: s) = utf8Size c + byteLen s := by
  simp [byteLen]

theorem byteLen_append (a b : List Char) :
    byteLen (a ++ b) = byteLen a + byteLen b := by
  simp [byteLen]

theorem byteLen_pos_of_ne_nil {s : List Char} (h : s ≠ []) : 0 < byteLen s := by
  cases s with
  | nil => exact absurd rfl h
  | cons c rest =>
    have := utf8Size_pos c
    simp only [byteLen_cons]
    omega

theorem byteLen_take_le (s : List Char) (k : Nat) :
    byteLen (s.take k) ≤ byteLen s := by
  conv_rhs => rw [← List.take_append_drop k s]
  rw [byteLen_append]
  omega

theorem byteLen_take_lt (s : List Char) {j k : Nat} (hjk : j < k)
    (hk : k ≤ s.length) : byteLen (s.take j) < byteLen (s.take k) := by
  have hk' : s.take k = s.take j ++ (s.drop j).take (k - j) := by
    rw [← List.take_add]
    congr 1
    omega
  have hne : (s.drop j).take (k - j) ≠ [] := by
    have hlen : ((s.drop j).take (k - j)).length = k - j := by
      rw [List.length_take, List.length_drop]
      omega
    intro hcon
    rw [hcon] at hlen
    simp at hlen
    omega
  have := byteLen_pos_of_ne_nil hne
  rw [hk', byteLen_append]
  omega

/-! ### takeBytes and dropBytes on character boundaries -/

@[simp] theorem takeBytes_zero (s : List Char) : takeBytes s 0 = some [] := by
  cases s <;> rfl

@[simp] theorem dropBytes_zero (s : List Char) : dropBytes s 0 = some s := by
  cases s <;> rfl

theorem takeBytes_cons_of_le (c : Char) (rest : List Char) {n : Nat}
    (h : utf8Size c ≤ n) (hn : 0 < n) :
    takeBytes (c :: rest) n = (takeBytes rest (n - utf8Size c)).map (fun t => c :: t) := by
  obtain ⟨m, rfl⟩ : ∃ m, n = m + 1 := ⟨n - 1, by omega⟩
  simp only [takeBytes, if_pos h]

theorem dropBytes_cons_of_le (c : Char) (rest : List Char) {n : Nat}
    (h : utf8Size c ≤ n) (hn : 0 < n) :
    dropBytes (c :: rest) n = dropBytes rest (n - utf8Size c) := by
  obtain ⟨m, rfl⟩ : ∃ m, n = m + 1 := ⟨n - 1, by omega⟩
  simp only [dropBytes, if_pos h]

theorem takeBytes_byteLen_take (s : List Char) (k : Nat) (hk : k ≤ s.length) :
    takeBytes s (byteLen (s.take k)) = some (s.take k) := by
  induction k generalizing s with
  | zero => simp
  | succ k ih =>
    cases s with
    | nil => simp at hk
    | cons c rest =>
      have hk' : k ≤ rest.length := by simpa using hk
      have hpos := utf8Size_pos c
      rw [List.take_succ_cons, byteLen_cons,
        takeBytes_cons_of_le c rest (by omega) (by omega)]
      have hsub : utf8Size c + byteLen (rest.take k) - utf8Size c = byteLen (rest.take k) := by
        omega
      rw [hsub, ih rest hk']
      rfl

theorem dropBytes_byteLen_take (s : List Char) (k : Nat) (hk : k ≤ s.length) :
    dropBytes s (byteLen (s.take k)) = some (s.drop k) := by
  induction k generalizing s with
  | zero => simp
  | succ k ih =>
    cases s with
    | nil => simp at hk
    | cons c rest =>
      have hk' : k ≤ rest.length := by simpa using hk
      have hpos := utf8Size_pos c
      rw [List.take_succ_cons, byteLen_cons,
        dropBytes_cons_of_le c rest (by omega) (by omega)]
      have hsub : utf8Size c + byteLen (rest.take k) - utf8Size c = byteLen (rest.take k) := by
        omega
      rw [hsub, ih rest hk', List.drop_succ_cons]

theorem sliceBytes_boundaries (s : List Char) {j k : Nat} (hjk : j ≤ k)
    (hk : k ≤ s.length) :
    sliceBytes s (byteLen (s.take j)) (byteLen (s.take k)) =
      some ((s.drop j).take (k - j)) := by
  have hsplit : s.take k = s.take j ++ (s.drop j).take (k - j) := by
    rw [← List.take_add]
    congr 1
    omega
  have hble : byteLen (s.take j) ≤ byteLen (s.take k) := by
    rw [hsplit, byteLen_append]
    omega
  have hdiff : byteLen (s.take k) - byteLen (s.take j) =
      byteLen ((s.drop j).take (k - j)) := by
    rw [hsplit, byteLen_append]
    omega
  have hj : j ≤ s.length := le_trans hjk hk
  unfold sliceBytes
  rw [if_pos hble, dropBytes_byteLen_take s j hj, hdiff]
  have hlen : k - j ≤ (s.drop j).length := by
    rw [List.length_drop]
    omega
  exact takeBytes_byteLen_take (s.drop j) (k - j) hlen

/-! ### Characterization of byte_in_str -/

theorem byteInStrLoop_charIndicesFrom (s : List Char) (off c : Nat) (z : Nat × Char) :
    byteInStrLoop (charIndicesFrom off s ++ [(off + byteLen s, z.2)]) c =
      if c ≤ s.length then some (off + byteLen (s.take c)) else none := by
  induction s generalizing off c with
  | nil =>
    cases c with
    | zero => simp [charIndicesFrom, byteInStrLoop]
    | succ n => simp [charIndicesFrom, byteInStrLoop]
  | cons ch rest ih =>
    cases c with
    | zero => simp [charIndicesFrom, byteInStrLoop]
    | succ n =>
      have hb : off + byteLen (ch :: rest) = off + utf8Size ch + byteLen rest := by
        rw [byteLen_cons]
        omega
      have hstep :
          byteInStrLoop (charIndicesFrom off (ch :: rest) ++
              [(off + byteLen (ch :: rest), z.2)]) (n + 1) =
            byteInStrLoop (charIndicesFrom (off + utf8Size ch) rest ++
              [(off + utf8Size ch + byteLen rest, z.2)]) n := by
        rw [hb]
        simp only [charIndicesFrom, List.cons_append, byteInStrLoop]
        rfl
      rw [hstep, ih (off + utf8Size ch) n]
      by_cases hn : n ≤ rest.length
      · rw [if_pos hn, if_pos (by simp only [List.length_cons]; omega)]
        simp only [List.take_succ_cons, byteLen_cons]
        congr 1
        omega
      · rw [if_neg hn, if_neg (by simp only [List.length_cons]; omega)]

/-- `byte_in_str` translates a character column to a byte offset exactly
when the column is at most the character length of the line: below it, the
byte offset of that character; at it, the byte length (the one-past-end
sentinel); beyond it, `none`. -/
theorem byte_in_str_eq (s : List Char) (c : Nat) :
    byte_in_str s c = if c ≤ s.length then some (byteLen (s.take c)) else none := by
  have := byteInStrLoop_charIndicesFrom s 0 c (byteLen s, Char.ofNat 0)
  simp only [Nat.zero_add] at this
  simpa [byte_in_str, char_indices] using this

theorem byte_in_str_zero (s : List Char) : byte_in_str s 0 = some 0 := by
  rw [byte_in_str_eq]
  simp

/-! ### Invariants of the line index -/

theorem utf8Size_newline : utf8Size '\n' = 1 := by decide

theorem mem_lineIndicesFrom : ∀ (s : List Char) (off x : Nat),
    x ∈ lineIndicesFrom off s → ∃ k, k ≤ s.length ∧ x = off + byteLen (s.take k)
  | [], off, x, hx => by simp [lineIndicesFrom] at hx
  | c :: rest, off, x, hx => by
    by_cases hc : c = '\n'
    · rw [lineIndicesFrom, if_pos hc, List.mem_cons] at hx
      rcases hx with rfl | hx
      · exact ⟨1, by simp, by simp [hc, utf8Size_newline]⟩
      · obtain ⟨k, hk, hkx⟩ := mem_lineIndicesFrom rest (off + 1) x hx
        refine ⟨k + 1, by simpa using hk, ?_⟩
        rw [hkx]
        simp only [List.take_succ_cons, byteLen_cons, hc, utf8Size_newline]
        omega
    · rw [lineIndicesFrom, if_neg hc] at hx
      obtain ⟨k, hk, hkx⟩ := mem_lineIndicesFrom rest (off + utf8Size c) x hx
      refine ⟨k + 1, by simpa using hk, ?_⟩
      rw [hkx]
      simp only [List.take_succ_cons, byteLen_cons]
      omega

theorem mem_make_line_indices {s : List Char} {x : Nat}
    (hx : x ∈ make_line_indices s) :
    ∃ k, k ≤ s.length ∧ x = byteLen (s.take k) := by
  rw [make_line_indices, List.mem_cons] at hx
  rcases hx with rfl | hx
  · exact ⟨0, by simp, by simp⟩
  rcases List.mem_append.1 hx with hx | hx
  · obtain ⟨k, hk, hkx⟩ := mem_lineIndicesFrom s 0 x hx
    exact ⟨k, hk, by omega⟩
  · rw [List.mem_singleton] at hx
    exact ⟨s.length, le_refl _, by rw [hx, List.take_length]⟩

theorem mem_make_line_indices_le {s : List Char} {x : Nat}
    (hx : x ∈ make_line_indices s) : x ≤ byteLen s := by
  obtain ⟨k, _, rfl⟩ := mem_make_line_indices hx
  exact byteLen_take_le s k

theorem lineIndicesFrom_lower {s : List Char} {off x : Nat}
    (hx : x ∈ lineIndicesFrom off s ++ [off + byteLen s]) : off ≤ x := by
  rcases List.mem_append.1 hx with hx | hx
  · obtain ⟨k, _, hkx⟩ := mem_lineIndicesFrom s off x hx
    omega
  · simp only [List.mem_singleton] at hx
    omega

theorem lineIndicesFrom_pairwise (s : List Char) (off : Nat) :
    List.Pairwise (· ≤ ·) (lineIndicesFrom off s ++ [off + byteLen s]) := by
  induction s generalizing off with
  | nil => simp [lineIndicesFrom]
  | cons c rest ih =>
    by_cases hc : c = '\n'
    · rw [lineIndicesFrom, if_pos hc]
      have hlen : off + byteLen (c :: rest) = (off + 1) + byteLen rest := by
        rw [byteLen_cons, hc, utf8Size_newline]
        omega
      rw [List.cons_append, hlen]
      refine List.Pairwise.cons ?_ (ih (off + 1))
      intro x hxmem
      have := lineIndicesFrom_lower hxmem
      omega
    · rw [lineIndicesFrom, if_neg hc]
      have hlen : off + byteLen (c :: rest) = (off + utf8Size c) + byteLen rest := by
        rw [byteLen_cons]
        omega
      rw [hlen]
      exact ih (off + utf8Size c)

theorem make_line_indices_pairwise (s : List Char) :
    List.Pairwise (· ≤ ·) (make_line_indices s) := by
  unfold make_line_indices
  refine List.Pairwise.cons ?_ ?_
  · intro x _
    exact Nat.zero_le x
  · have := lineIndicesFrom_pairwise s 0
    simpa using this

theorem pairwise_le_getElem? {l : List Nat} (hp : List.Pairwise (· ≤ ·) l)
    {i j a b : Nat} (hij : i ≤ j) (ha : l[i]? = some a) (hb : l[j]? = some b) :
    a ≤ b := by
  have hj : j < l.length := by
    by_contra hcon
    rw [List.getElem?_eq_none (by omega)] at hb
    exact Option.noConfusion hb
  have hi : i < l.length := by omega
  have ha' : l[i] = a := by
    rw [List.getElem?_eq_getElem hi] at ha
    exact Option.some.inj ha
  have hb' : l[j] = b := by
    rw [List.getElem?_eq_getElem hj] at hb
    exact Option.some.inj hb
  rcases Nat.lt_or_ge i j with hlt | hge
  · have := (List.pairwise_iff_getElem.1 hp) i j hi hj hlt
    omega
  · have hij' : i = j := by omega
    subst hij'
    omega

/-! ### load_line on a consistent buffer -/

/-- On a buffer whose line index is the one built from its text, every line
number whose successor entry exists loads successfully, and the loaded line
is exactly the byte range between consecutive index entries. -/
theorem load_line_ok {U : Type} (f : File U)
    (h : f.line_indices = make_line_indices f.text) (line : Nat)
    (hlt : line + 1 < f.line_indices.length) :
    ∃ a b s, f.line_indices[line]? = some a ∧
      f.line_indices[line + 1]? = some b ∧
      sliceBytes f.text a b = some s ∧ f.load_line line = .ok s := by
  have hline : line < f.line_indices.length := by omega
  have ha : f.line_indices[line]? = some f.line_indices[line] :=
    List.getElem?_eq_getElem hline
  have hb : f.line_indices[line + 1]? = some f.line_indices[line + 1] :=
    List.getElem?_eq_getElem hlt
  set a := f.line_indices[line] with hadef
  set b := f.line_indices[line + 1] with hbdef
  have hpw : List.Pairwise (· ≤ ·) f.line_indices := by
    rw [h]
    exact make_line_indices_pairwise f.text
  have hab : a ≤ b := pairwise_le_getElem? hpw (by omega) ha hb
  have hamem : a ∈ make_line_indices f.text := by
    rw [← h]
    exact List.getElem?_mem ha
  have hbmem : b ∈ make_line_indices f.text := by
    rw [← h]
    exact List.getElem?_mem hb
  obtain ⟨j, hjle, hja⟩ := mem_make_line_indices hamem
  obtain ⟨k, hkle, hkb⟩ := mem_make_line_indices hbmem
  have hble : b ≤ byteLen f.text := mem_make_line_indices_le hbmem
  have hjk : j ≤ k := by
    by_contra hcon
    have := byteLen_take_lt f.text (j := k) (k := j) (by omega) hjle
    omega
  have hslice : sliceBytes f.text a b = some ((f.text.drop j).take (k - j)) := by
    rw [hja, hkb]
    exact sliceBytes_boundaries f.text hjk hkle
  refine ⟨a, b, (f.text.drop j).take (k - j), ha, hb, hslice, ?_⟩
  simp only [File.load_line, ha, hb, hslice]
  rw [if_pos ⟨hble, hab⟩]

/-- Line numbers at or beyond the sentinel entry produce `BadLocation`. -/
theorem load_line_err {U : Type} (f : File U) (line : Nat)
    (hge : f.line_indices.length ≤ line + 1) :
    f.load_line line = .err .BadLocation := by
  have hnone : f.line_indices[line + 1]? = none := List.getElem?_eq_none hge
  unfold File.load_line
  cases hfst : f.line_indices[line]? with
  | none => rfl
  | some a => rw [hnone]

/-! ### Shape of successful edits and the association-list store -/

/-- Any successful `make_change` leaves the buffer dirty with cleared user
data: the flag and the slot are written unconditionally after the loop. -/
theorem make_change_ok_shape {U : Type} :
    ∀ (cs : List Change) (f f' : File U), f.make_change cs = .ok f' →
      f'.changed = true ∧ f'.user_data = none
  | [], f, f', h => by
    simp only [File.make_change] at h
    injection h with h
    rw [← h]
    exact ⟨rfl, rfl⟩
  | c :: rest, f, f', h => by
    simp only [File.make_change] at h
    cases happ : f.applyChange c with
    | ok f1 =>
      rw [happ] at h
      exact make_change_ok_shape rest f1 f' h
    | err e =>
      rw [happ] at h
      exact Outcome.noConfusion h
    | panic =>
      rw [happ] at h
      exact Outcome.noConfusion h

theorem lookupA_insertA {U : Type} (path : String) (f : File U) :
    ∀ files, lookupA path (insertA path f files) = some f
  | [] => by simp [insertA, lookupA]
  | (p, g) :: rest => by
    by_cases hp : p = path
    · simp [insertA, lookupA, hp]
    · simp [insertA, lookupA, hp, lookupA_insertA path f rest]

/-- Replacing the empty range at position (0, 0) of a consistent buffer
prepends the replacement text. -/
theorem applyChange_insert_zero {U : Type} (f : File U)
    (h : f.line_indices = make_line_indices f.text) (p : String) (t : List Char) :
    f.applyChange (.ReplaceText p 0 0 0 0 none t) =
      .ok { f with
            text := t ++ f.text,
            line_indices := make_line_indices (t ++ f.text) } := by
  have hlen : 1 < f.line_indices.length := by
    rw [h, make_line_indices]
    simp
  obtain ⟨a, b, s, ha, hb, hsl, hll⟩ := load_line_ok f h 0 (by omega)
  have ha0 : a = 0 := by
    rw [h, make_line_indices, List.getElem?_cons_zero] at ha
    exact (Option.some.inj ha).symm
  subst ha0
  simp only [File.applyChange, hll, ha, byte_in_str_zero, Nat.add_zero, Nat.zero_add,
    takeBytes_zero, dropBytes_zero, List.nil_append]

/-- Two edits in one batch are applied sequentially against the evolving
buffer: inserting `tX` at (0, 0) and then `tY` at (0, 0) puts `tY` first. -/
theorem make_change_two_inserts {U : Type} (f : File U)
    (h : f.line_indices = make_line_indices f.text) (p q : String) (tX tY : List Char) :
    f.make_change [.ReplaceText p 0 0 0 0 none tX, .ReplaceText q 0 0 0 0 none tY] =
      .ok { f with
            text := tY ++ (tX ++ f.text),
            line_indices := make_line_indices (tY ++ (tX ++ f.text)),
            changed := true, user_data := none } := by
  have h1 := applyChange_insert_zero f h p tX
  have h2 := applyChange_insert_zero
    ({ f with
       text := tX ++ f.text,
       line_indices := make_line_indices (tX ++ f.text) } : File U) rfl q tY
  simp only [File.make_change, h1, h2]

/-- Grouping a batch whose changes all target one path yields that single
group, in submission order. -/
theorem coalesce_foldl_single (path : String) :
    ∀ (changes : List Change) (acc : List Change),
      (∀ c ∈ changes, c.file = path) →
      List.foldl (fun acc c => pushChange c.file c acc) [(path, acc)] changes =
        [(path, acc ++ changes)]
  | [], acc, _ => by simp
  | c :: rest, acc, h => by
    have hc : c.file = path := h c (List.mem_cons_self c rest)
    have hpush : pushChange c.file c [(path, acc)] = [(path, acc ++ [c])] := by
      rw [hc]
      simp [pushChange]
    simp only [List.foldl_cons, hpush]
    rw [coalesce_foldl_single path rest (acc ++ [c])
      (fun d hd => h d (List.mem_cons_of_mem c hd))]
    simp

theorem coalesce_changes_single (path : String) (changes : List Change)
    (hne : changes ≠ []) (hall : ∀ c ∈ changes, c.file = path) :
    coalesce_changes changes = [(path, changes)] := by
  cases changes with
  | nil => exact absurd rfl hne
  | cons c rest =>
    have hc : c.file = path := hall c (List.mem_cons_self c rest)
    have h0 : pushChange c.file c [] = [(path, [c])] := by
      rw [hc]
      rfl
    unfold coalesce_changes
    simp only [List.foldl_cons, h0]
    rw [coalesce_foldl_single path rest [c]
      (fun d hd => hall d (List.mem_cons_of_mem c hd))]
    simp

/-! ### Claim theorems -/

/-- C1 (amended): submitting, in one batch for the same file, an insertion
of "X" at (line 0, col 0) and then an insertion of "Y" at (line 0, col 0)
— each a replacement of the empty range at that position — applies the
second edit against the buffer as evolved by the first, so the result is
"YX" followed by the original text, not "XY" followed by it. -/
theorem make_change_double_insert (U : Type) (f : File U) (p : String)
    (h : f.line_indices = make_line_indices f.text) :
    f.make_change [Change.ReplaceText p 0 0 0 0 none ['X'],
      Change.ReplaceText p 0 0 0 0 none ['Y']] =
      .ok { f with
            text := 'Y' :: 'X' :: f.text,
            line_indices := make_line_indices ('Y' :: 'X' :: f.text),
            changed := true, user_data := none } := by
  have h2 := make_change_two_inserts f h p p ['X'] ['Y']
  simpa using h2

/-- Witness for C1: the double insertion on the concrete buffer "a". -/
theorem make_change_double_insert_witness :
    (File.from_text ['a'] : File Unit).make_change
      [Change.ReplaceText "p" 0 0 0 0 none ['X'],
       Change.ReplaceText "p" 0 0 0 0 none ['Y']] =
      .ok { (File.from_text ['a'] : File Unit) with
            text := 'Y' :: 'X' :: (File.from_text ['a'] : File Unit).text,
            line_indices :=
              make_line_indices ('Y' :: 'X' :: (File.from_text ['a'] : File Unit).text),
            changed := true, user_data := none } :=
  make_change_double_insert Unit (File.from_text ['a']) "p" rfl

/-- Counterexample for C1 as stated: on the buffer "a", the batch of the
two insertions submitted in order produces the text "YXa" through
`on_changes`, and "YXa" differs from the claimed "XYa". -/
theorem onChanges_double_insert_yields_yx :
    onChanges (fun _ => .error (.Io none none))
      [("p", (File.from_text ['a'] : File Unit))]
      [Change.ReplaceText "p" 0 0 0 0 none ['X'],
       Change.ReplaceText "p" 0 0 0 0 none ['Y']] =
      .ok [("p", { text := ['Y', 'X', 'a'], line_indices := [0, 3],
                   changed := true, user_data := none })] ∧
    (['Y', 'X', 'a'] : List Char) ≠ ['X', 'Y', 'a'] := by
  constructor
  · rfl
  · decide

/-- C2: a replace-text change whose start row lies beyond the buffer's
line count makes `make_change` panic — the `unwrap` of the `BadLocation`
returned by `load_line` — instead of returning the typed error. -/
theorem make_change_bad_row_panics :
    (File.from_text ['a', '\n'] : File Unit).make_change
      [Change.ReplaceText "p" 5 0 5 0 none ['x']] = Outcome.panic := by
  rfl

/-- C3: in a single-file batch whose first edit succeeds and whose second
edit names a row beyond the buffer, `on_changes` panics: no error value is
returned to the caller and the store mutex is poisoned. -/
theorem onChanges_batch_bad_edit_panics :
    onChanges (fun _ => .error (.Io none none))
      [("p", (File.from_text ['a', 'b'] : File Unit))]
      [Change.ReplaceText "p" 0 0 0 0 none ['A'],
       Change.ReplaceText "p" 9 0 9 0 none ['B']] = VfsOut.panic := by
  rfl

/-- C4 (amended): for a path that is not cached, `with_user_data` invokes
the closure with the `FileNotCached` error and returns whatever the closure
returns, leaving the store untouched; it fails only when the closure
propagates the error. -/
theorem withUserData_uncached_runs_closure (U R : Type)
    (files : List (String × File U)) (path : String)
    (fn : Except Error (List Char × U) → Except Error R × Option U)
    (h : lookupA path files = none) :
    withUserData files path fn = ((fn (.error .FileNotCached)).1, files) := by
  simp only [withUserData, h]

/-- Witness for C4: the empty store with a closure returning a constant. -/
theorem withUserData_uncached_runs_closure_witness :
    withUserData ([] : List (String × File Unit)) "foo"
      (fun _ => (Except.ok (0 : Nat), none)) = (Except.ok 0, []) :=
  withUserData_uncached_runs_closure Unit Nat [] "foo"
    (fun _ => (Except.ok (0 : Nat), none)) rfl

/-- Counterexample for C4 as stated: on a store that does not cache "foo",
`with_user_data` with a closure that maps every input to a success returns
a success, not the `FileNotCached` error. -/
theorem withUserData_uncached_can_succeed :
    (withUserData ([] : List (String × File Unit)) "foo"
      (fun _ => (Except.ok (0 : Nat), none))).1 = Except.ok 0 ∧
    (Except.ok (0 : Nat) : Except Error Nat) ≠ Except.error Error.FileNotCached := by
  constructor
  · rfl
  · intro hcon
    exact Except.noConfusion hcon

/-- C5: replacing a range given by an explicit character length yields the
same text as replacing the range given by an explicit end position, when
the resolved end offset lies exactly `len` characters past the resolved
start offset (`len` below the `u32` truncation bound of the source's
cast). -/
theorem make_change_len_mode_eq_end_mode (U : Type) (f : File U) (p : String)
    (rs cs re ce len : Nat) (repl firstLine lastLine suffix : List Char)
    (lineOff colOff lineOffE colOffE : Nat)
    (hl1 : f.load_line rs = Outcome.ok firstLine)
    (hi1 : f.line_indices[rs]? = some lineOff)
    (hc1 : byte_in_str firstLine cs = some colOff)
    (hl2 : f.load_line re = Outcome.ok lastLine)
    (hi2 : f.line_indices[re]? = some lineOffE)
    (hc2 : byte_in_str lastLine ce = some colOffE)
    (hdrop : dropBytes f.text (lineOff + colOff) = some suffix)
    (hlen : len ≤ suffix.length)
    (h32 : len < 4294967296)
    (heq : lineOffE + colOffE = lineOff + colOff + byteLen (suffix.take len)) :
    f.make_change [Change.ReplaceText p rs cs re ce (some len) repl] =
      f.make_change [Change.ReplaceText p rs cs re ce none repl] := by
  have happ : f.applyChange (Change.ReplaceText p rs cs re ce (some len) repl) =
      f.applyChange (Change.ReplaceText p rs cs re ce none repl) := by
    have hmod : len % 4294967296 = len := Nat.mod_eq_of_lt h32
    have hbis : byte_in_str suffix (len % 4294967296) =
        some (byteLen (suffix.take len)) := by
      rw [hmod, byte_in_str_eq, if_pos hlen]
    simp only [File.applyChange, hl1, hi1, hc1, hl2, hi2, hc2, hdrop, hbis, heq]
  simp only [File.make_change, happ]

/-- Witness for C5: on the buffer "abc", replacing one character starting
at (0, 1) by length agrees with replacing the range (0, 1)-(0, 2). -/
theorem make_change_len_mode_eq_end_mode_witness :
    (File.from_text ['a', 'b', 'c'] : File Unit).make_change
      [Change.ReplaceText "p" 0 1 0 2 (some 1) ['Z']] =
      (File.from_text ['a', 'b', 'c'] : File Unit).make_change
      [Change.ReplaceText "p" 0 1 0 2 none ['Z']] :=
  make_change_len_mode_eq_end_mode Unit (File.from_text ['a', 'b', 'c']) "p"
    0 1 0 2 1 ['Z'] ['a', 'b', 'c'] ['a', 'b', 'c'] ['b', 'c'] 0 1 0 2
    rfl rfl rfl rfl rfl rfl rfl (by decide) (by decide) (by decide)

/-- C6: every text change clears the user-data slot — a successful
`make_change` (covering replace-text and add-file changes) always returns
a buffer with `user_data` absent, and `set_file` installs a buffer with
`user_data` absent. -/
theorem text_change_clears_user_data :
    (∀ (U : Type) (cs : List Change) (f f' : File U),
        f.make_change cs = .ok f' → f'.user_data = none) ∧
    (∀ (U : Type) (files : List (String × File U)) (path : String) (text : List Char),
        lookupA path (setFile files path text) =
          some { text := text, line_indices := make_line_indices text,
                 changed := true, user_data := none }) := by
  constructor
  · intro U cs f f' h
    exact (make_change_ok_shape cs f f' h).2
  · intro U files path text
    exact lookupA_insertA path _ files

/-- Witness for C6: an add-file edit on a buffer with user data set. -/
theorem text_change_clears_user_data_witness :
    ((File.mk ['a'] [0, 1] false (some 7) : File Nat).make_change
        [Change.AddFile "p" ['b']] =
      Outcome.ok { text := ['b'], line_indices := make_line_indices ['b'],
                   changed := true, user_data := none }) ∧
    ({ text := ['b'], line_indices := make_line_indices ['b'],
       changed := true, user_data := none } : File Nat).user_data = none ∧
    lookupA "p" (setFile ([] : List (String × File Nat)) "p" ['c']) =
      some { text := ['c'], line_indices := make_line_indices ['c'],
             changed := true, user_data := none } :=
  ⟨rfl, text_change_clears_user_data.1 Nat [Change.AddFile "p" ['b']]
      (File.mk ['a'] [0, 1] false (some 7)) _ rfl,
    text_change_clears_user_data.2 Nat [] "p" ['c']⟩

/-- C7: dirty-flag postconditions — a file built by the loader boundary is
not dirty; a successful `make_change` leaves the file dirty; `file_saved`
stores the file with the flag cleared; a successful `write_file` stores
the file with the flag cleared. -/
theorem dirty_flag_postconditions :
    (∀ (U : Type) (disk : String → Except Error (List Char)) (path : String)
        (f : File U), readerToFile U disk path = .ok f → f.changed = false) ∧
    (∀ (U : Type) (cs : List Change) (f f' : File U),
        f.make_change cs = .ok f' → f'.changed = true) ∧
    (∀ (U : Type) (files : List (String × File U)) (path : String) (f : File U),
        lookupA path files = some f →
          lookupA path (fileSaved files path) = some { f with changed := false }) ∧
    (∀ (U : Type) (writer : String → List Char → Except Error Unit)
        (files : List (String × File U)) (path : String) (f : File U),
        lookupA path files = some f → writer path f.text = .ok () →
          writeFile writer files path =
            .ok (insertA path { f with changed := false } files) ∧
          lookupA path (insertA path { f with changed := false } files) =
            some { f with changed := false }) := by
  refine ⟨?_, ?_, ?_, ?_⟩
  · intro U disk path f h
    unfold readerToFile at h
    cases hd : disk path with
    | error e =>
      rw [hd] at h
      exact Except.noConfusion h
    | ok text =>
      rw [hd] at h
      injection h with h
      rw [← h]
      rfl
  · intro U cs f f' h
    exact (make_change_ok_shape cs f f' h).1
  · intro U files path f h
    unfold fileSaved
    rw [h]
    exact lookupA_insertA path _ files
  · intro U writer files path f h hw
    simp only [writeFile, h, hw]
    exact ⟨trivial, lookupA_insertA path _ files⟩

/-- Witness for C7: a loader with fixed disk content, an empty edit batch,
a saved file, and a written file. -/
theorem dirty_flag_postconditions_witness :
    ((File.from_text ['a'] : File Unit).changed = false) ∧
    ((File.mk ['a'] [0, 1] false none : File Unit).make_change [] =
        Outcome.ok (File.mk ['a'] [0, 1] true none) ∧
      (File.mk ['a'] [0, 1] true none : File Unit).changed = true) ∧
    (lookupA "p" (fileSaved [("p", (File.mk ['a'] [0, 1] true none : File Unit))] "p") =
      some (File.mk ['a'] [0, 1] false none)) ∧
    (writeFile (fun _ _ => Except.ok ())
        [("p", (File.mk ['a'] [0, 1] true none : File Unit))] "p" =
      .ok [("p", (File.mk ['a'] [0, 1] false none : File Unit))]) :=
  ⟨dirty_flag_postconditions.1 Unit (fun _ => Except.ok ['a']) "p"
      (File.from_text ['a']) rfl,
    ⟨rfl, dirty_flag_postconditions.2.1 Unit [] (File.mk ['a'] [0, 1] false none)
        (File.mk ['a'] [0, 1] true none) rfl⟩,
    dirty_flag_postconditions.2.2.1 Unit
      [("p", File.mk ['a'] [0, 1] true none)] "p" _ rfl,
    (dirty_flag_postconditions.2.2.2 Unit (fun _ _ => Except.ok ())
      [("p", File.mk ['a'] [0, 1] true none)] "p" _ rfl rfl).1⟩

/-- C8: on a buffer whose line index is the one built from its text,
`load_line` returns exactly the half-open byte range between consecutive
index entries whenever the successor entry exists, and fails with
`BadLocation` for every line number at or beyond the sentinel entry,
never silently returning an empty string for such lines. -/
theorem load_line_spec (U : Type) (f : File U)
    (h : f.line_indices = make_line_indices f.text) (line : Nat) :
    (∀ a b, line + 1 < f.line_indices.length →
        f.line_indices[line]? = some a → f.line_indices[line + 1]? = some b →
        (sliceBytes f.text a b).map Outcome.ok = some (f.load_line line)) ∧
    (f.line_indices.length ≤ line + 1 →
        f.load_line line = .err .BadLocation) := by
  constructor
  · intro a b hlt ha hb
    obtain ⟨a', b', s, ha', hb', hs, hload⟩ := load_line_ok f h line hlt
    have haa : a = a' := by
      rw [ha] at ha'
      exact Option.some.inj ha'
    have hbb : b = b' := by
      rw [hb] at hb'
      exact Option.some.inj hb'
    rw [haa, hbb, hs, hload]
    rfl
  · intro hge
    exact load_line_err f line hge

/-- Witness for C8: the buffer "a\nb" at the valid line 1 and the
out-of-range line 7. -/
theorem load_line_spec_witness :
    ((sliceBytes (File.from_text ['a', '\n', 'b'] : File Unit).text 2 3).map Outcome.ok =
      some ((File.from_text ['a', '\n', 'b'] : File Unit).load_line 1)) ∧
    (File.from_text ['a', '\n', 'b'] : File Unit).load_line 7 =
      .err .BadLocation :=
  ⟨(load_line_spec Unit (File.from_text ['a', '\n', 'b']) rfl 1).1 2 3
      (by decide) rfl rfl,
    (load_line_spec Unit (File.from_text ['a', '\n', 'b']) rfl 7).2 (by decide)⟩

/-- C9: `byte_in_str` succeeds exactly for columns up to the character
length of the line: below it, it returns the byte offset of that
character; at it, the byte length of the line (the one-past-end sentinel);
beyond it, not-found. -/
theorem byte_in_str_spec (s : List Char) (c : Nat) :
    byte_in_str s c = if c ≤ s.length then some (byteLen (s.take c)) else none :=
  byte_in_str_eq s c

/-- C10: for an uncached path, `on_changes` consults the loader before
applying any change of that path's batch — also when the batch is a lone
`AddFile` — and a read failure is returned while the store keeps exactly
the buffers it had. -/
theorem onChanges_uncached_read_error (U : Type)
    (reader : String → Except Error (File U)) (files : List (String × File U))
    (path : String) (changes : List Change) (p m : Option String)
    (hne : changes ≠ []) (hall : ∀ c ∈ changes, c.file = path)
    (hmiss : lookupA path files = none)
    (hread : reader path = .error (.Io p m)) :
    onChanges reader files changes = .err (.Io p m) files := by
  unfold onChanges
  rw [coalesce_changes_single path changes hne hall]
  simp only [onChangesGo, hmiss, hread]

/-- Witness for C10: a batch holding one `AddFile` for a path missing from
an empty store, with a loader that fails. -/
theorem onChanges_uncached_read_error_witness :
    onChanges (U := Unit) (fun _ => .error (.Io (some "p") none)) []
      [Change.AddFile "p" ['a']] = .err (.Io (some "p") none) [] :=
  onChanges_uncached_read_error Unit (fun _ => .error (.Io (some "p") none)) []
    "p" [Change.AddFile "p" ['a']] (some "p") none (by decide)
    (by intro c hc; simp at hc; rw [hc]; rfl) rfl rfl

end RlsVfs

